import Mathlib

/-
Verification development for the stanity PSIS / PSIS-LOO library
(stanity/psis.py and stanity/psisloo.py), shallowly embedded over the
real numbers. IEEE doubles are idealized as reals; the float NaN is made
explicit (an Option, or the GVal.nan constructor), the float +infinity is
the GVal.inf constructor or the top element of EReal. The functions log1p
and expm1 are value-exact over the reals, so they are rendered as
log (1 + x) and exp x - 1.
-/

namespace Stanity

/-- Machine epsilon of an IEEE double, np.finfo(float).eps = 2 ^ (-52). -/
noncomputable def meps : ℝ := (2 : ℝ) ^ (-(52 : ℤ))

/-- Smallest positive normal IEEE double, np.finfo(float).tiny = 2 ^ (-1022). -/
noncomputable def floatTiny : ℝ := (2 : ℝ) ^ (-(1022 : ℤ))

/-- Maximum of a list of reals, matching np.max on a nonempty array
(the empty-list value 0 is never used by the pipeline). -/
noncomputable def listMax : List ℝ → ℝ
  | [] => 0
  | x :: xs => xs.foldl max x

/-- Arithmetic mean of a list, matching np.mean. -/
noncomputable def mean (x : List ℝ) : ℝ := x.sum / (x.length : ℝ)

/-- Source function sumlogs (psis.py): log of the sum of exponentials,
computed by shifting by the maximum, exponentiating, summing, taking the
log and adding the maximum back. -/
noncomputable def sumlogs (x : List ℝ) : ℝ :=
  Real.log ((x.map (fun v => Real.exp (v - listMax x))).sum) + listMax x

/-- Sequence a list of optional reals: some of the list of values when
every entry is some, none otherwise (the embedding of NaN poisoning). -/
def seqOpt : List (Option ℝ) → Option (List ℝ)
  | [] => some []
  | none :: _ => none
  | some v :: t =>
    match seqOpt t with
    | none => none
    | some l => some (v :: l)

/-- Indices i (in increasing order) with c < x[i]; the embedding of
np.where(x > c) for a one-dimensional array. -/
noncomputable def whereGt (x : List ℝ) (c : ℝ) : List ℕ :=
  (List.range x.length).filter (fun i => decide (c < x.getD i 0))

/-- Indices that sort the list of values ascending (np.argsort; ties are
resolved stably, which fixes one of the orders np.argsort may return and
never changes the resulting sorted value sequence). -/
noncomputable def argsortR (v : List ℝ) : List ℕ :=
  List.insertionSort (fun i j => v.getD i 0 ≤ v.getD j 0) (List.range v.length)

/-- Fancy-index assignment x[idxs] = vals of numpy, as a left fold of
single-position updates. -/
def setMany (x : List ℝ) (idxs : List ℕ) (vals : List ℝ) : List ℝ :=
  (idxs.zip vals).foldl (fun a p => a.set p.1 p.2) x

/-- Linear-interpolation percentile of np.percentile: position
q / 100 * (len - 1) into the sorted data, interpolating between the two
neighbouring order statistics. -/
noncomputable def percentile (x : List ℝ) (q : ℝ) : ℝ :=
  let s := List.insertionSort (· ≤ ·) x
  let pos := q / 100 * ((x.length : ℝ) - 1)
  let i := (⌊pos⌋).toNat
  let a := s.getD i 0
  let b := s.getD (i + 1) a
  a + (pos - (⌊pos⌋ : ℝ)) * (b - a)

/-- Value of one entry of the output array of gpinv (psis.py): a real, the
float +infinity, or the float NaN. -/
inductive GVal where
  | nan : GVal
  | inf : GVal
  | fin : ℝ → GVal

/-- Comparison of two gpinv output entries, with the IEEE conventions:
any comparison against NaN is false, and every non-NaN value is at most
+infinity. -/
def GVal.le : GVal → GVal → Prop
  | .fin a, .fin b => a ≤ b
  | .fin _, .inf => True
  | .inf, .inf => True
  | _, _ => False

/-- Finite payload of a gpinv output entry, none for NaN or infinity. -/
def GVal.toReal? : GVal → Option ℝ
  | .fin r => some r
  | _ => none

/-- Source function gpinv (psis.py) at one position p of the probability
array: NaN everywhere when sigma is not positive; otherwise the inverse
GPD CDF with the exponential limit when the shape is below machine
epsilon, value 0 at p = 0, and +infinity (k nonnegative) or -sigma / k
(k negative) at p = 1; NaN at every position outside [0, 1] (the output
array is initialized to NaN and such positions are never written). -/
noncomputable def gpinv1 (p k sigma : ℝ) : GVal :=
  if sigma ≤ 0 then .nan
  else if 0 < p ∧ p < 1 then
    if |k| < meps then .fin (sigma * (-Real.log (1 + -p)))
    else .fin (sigma * ((Real.exp (-k * Real.log (1 + -p)) - 1) / k))
  else if p = 0 then .fin 0
  else if p = 1 then (if 0 ≤ k then .inf else .fin (-sigma / k))
  else .nan

/-- Source function gpinv (psis.py), vectorized over the probability
array. -/
noncomputable def gpinv (p : List ℝ) (k sigma : ℝ) : List GVal :=
  p.map (fun pi => gpinv1 pi k sigma)

/-- Core computation of gpdfitnew (psis.py), translated operation by
operation from the numpy code (the sort parameter variants all amount to
reading order statistics of the sorted values, rendered here with an
explicit sort). -/
noncomputable def gpdfitCore (x : List ℝ) : ℝ × ℝ :=
  let n := x.length
  let s := List.insertionSort (· ≤ ·) x
  let m := 80 + Nat.sqrt n
  let xq := s.getD ((⌊(n : ℝ) / 4 + 0.5⌋ - 1).toNat) 0
  let xmax := s.getD (n - 1) 0
  let bs0 := (List.range m).map (fun j : ℕ => (j : ℝ) + 1)
  let bs1 := bs0.map (fun v => v - 0.5)
  let bs2 := bs1.map (fun v => (m : ℝ) / v)
  let bs3 := bs2.map Real.sqrt
  let bs4 := bs3.map (fun v => 1 - v)
  let bs5 := bs4.map (fun v => v / (3 * xq))
  let bs := bs5.map (fun v => v + 1 / xmax)
  let ks := bs.map (fun b => mean (x.map (fun v => Real.log (1 + -b * v))))
  let L := List.zipWith (fun b k => (Real.log (-(b / k)) - k - 1) * (n : ℝ)) bs ks
  let w := L.map (fun Lj => 1 / (L.map (fun Li => Real.exp (Li - Lj))).sum)
  let bw := (bs.zip w).filter (fun q => decide (10 * meps ≤ q.2))
  let wsum := (bw.map Prod.snd).sum
  let b := (bw.map (fun q => q.1 * (q.2 / wsum))).sum
  let k := mean (x.map (fun v => Real.log (1 + -b * v)))
  (k, -k / b)

/-- Source function gpdfitnew (psis.py): the input must be one-dimensional
(structural in this embedding) with more than one entry, otherwise an
invalid-input error is raised. -/
noncomputable def gpdfitnew (x : List ℝ) : Except String (ℝ × ℝ) :=
  if x.length ≤ 1 then .error "Invalid input array."
  else .ok (gpdfitCore x)

/-- Specification-side grid candidate, written from the words of the
spec: b j = 1 / x max + (1 - sqrt(m / (j - 0.5))) / (3 x q) for the
1-based index j. -/
noncomputable def specBGrid (m : ℕ) (xq xmax : ℝ) (j : ℕ) : ℝ :=
  1 / xmax + (1 - Real.sqrt ((m : ℝ) / ((j : ℝ) - 0.5))) / (3 * xq)

/-- Specification-side conditional shape estimate,
k(b) = mean(log1p(-b x)). -/
noncomputable def specKHat (x : List ℝ) (bv : ℝ) : ℝ :=
  mean (x.map (fun v => Real.log (1 + -bv * v)))

/-- Specification-side profile log-likelihood,
L(b) = n (log(-b / k(b)) - k(b) - 1), at the 1-based grid index j. -/
noncomputable def specProfileL (x : List ℝ) (m : ℕ) (xq xmax : ℝ) (j : ℕ) : ℝ :=
  (x.length : ℝ) *
    (Real.log (-(specBGrid m xq xmax j / specKHat x (specBGrid m xq xmax j))) -
      specKHat x (specBGrid m xq xmax j) - 1)

/-- Specification-side weight w j = 1 / sum i exp(L i - L j) over the
1-based grid indices. -/
noncomputable def specW (x : List ℝ) (m : ℕ) (xq xmax : ℝ) (j : ℕ) : ℝ :=
  1 / (((List.range m).map
    (fun i => Real.exp (specProfileL x m xq xmax (i + 1) - specProfileL x m xq xmax j))).sum)

/-- Specification-side rendering of the gpdfitnew algorithm, written from
the words of the spec: a grid of m = 80 + floor(sqrt(n2)) candidates
b j for j = 1..m, weights w j, candidates with weight below 10
machine-epsilon dropped and the rest renormalized, posterior mean of b,
then k = mean(log1p(-b x)) and sigma = -k / b. -/
noncomputable def gpdfitSpec (x : List ℝ) : ℝ × ℝ :=
  let m := 80 + Nat.sqrt x.length
  let s := List.insertionSort (· ≤ ·) x
  let xmax := s.getD (x.length - 1) 0
  let xq := s.getD ((⌊(x.length : ℝ) / 4 + 0.5⌋ - 1).toNat) 0
  let kept := ((List.range m).map (fun i => i + 1)).filter
    (fun j => decide (10 * meps ≤ specW x m xq xmax j))
  let wsum := (kept.map (specW x m xq xmax)).sum
  let bbar := (kept.map (fun j => specBGrid m xq xmax j * (specW x m xq xmax j / wsum))).sum
  (specKHat x bbar, -specKHat x bbar / bbar)

/-- Cutoff floor of psislw: log of the smallest positive normal double. -/
noncomputable def cutoffmin : ℝ := Real.log floatTiny

/-- Cutoff of one psislw column: the (100 - wcpp) percentile of the
(already shifted) column, floored at cutoffmin. -/
noncomputable def xcutoffOf (wcpp : ℝ) (x : List ℝ) : ℝ :=
  max (percentile x (100 - wcpp)) cutoffmin

/-- Indices of the tail entries of one psislw column: positions strictly
above the cutoff. -/
noncomputable def tailIndsOf (wcpp : ℝ) (x : List ℝ) : List ℕ :=
  whereGt x (xcutoffOf wcpp x)

/-- Values of the tail entries of one psislw column. -/
noncomputable def tailValsOf (wcpp : ℝ) (x : List ℝ) : List ℝ :=
  (tailIndsOf wcpp x).map (x.getD · 0)

/-- Tail-smoothing stage of psislw on one already-shifted column: when at
most 4 entries exceed the cutoff the column is returned unchanged with
tail index +infinity; otherwise the exceedances are exponentiated,
shifted by exp(cutoff), fitted with gpdfitnew (whose argsort argument is
the argsort of the log-scale tail, which sorts the transformed tail as
well since the transform is increasing; only sorted order statistics are
consumed), mapped through gpinv at the order-statistic probabilities,
shifted and logged back, and written into the tail positions in sorted
rank order. A NaN produced by gpinv (nonpositive fitted sigma) poisons
the whole column, rendered as none. -/
noncomputable def smoothColumn (wcpp : ℝ) (x : List ℝ) : Option (List ℝ) × EReal :=
  let expxcutoff := Real.exp (xcutoffOf wcpp x)
  let tailinds := tailIndsOf wcpp x
  let x2 := tailValsOf wcpp x
  let n2 := x2.length
  if n2 ≤ 4 then (some x, ⊤)
  else
    let x2si := argsortR x2
    let x2e := x2.map (fun v => Real.exp v - expxcutoff)
    let fit := gpdfitCore x2e
    let sti := (List.range n2).map (fun i : ℕ => ((i : ℝ) + 0.5) / (n2 : ℝ))
    match seqOpt ((sti.map (fun p => gpinv1 p fit.1 fit.2)).map GVal.toReal?) with
    | none => (none, (fit.1 : EReal))
    | some qv =>
      let qq := qv.map (fun v => Real.log (v + expxcutoff))
      (some (setMany x (x2si.map (tailinds.getD · 0)) qq), (fit.1 : EReal))

/-- Truncation stage of psislw on one column: entries above
wtrunc * log n - log n + sumlogs are clipped to that threshold; a
nonpositive wtrunc disables truncation. -/
noncomputable def truncateCol (wtrunc : ℝ) (n : ℕ) (y : List ℝ) : List ℝ :=
  if 0 < wtrunc then
    let lwtrunc := wtrunc * Real.log (n : ℝ) - Real.log (n : ℝ) + sumlogs y
    y.map (fun v => if lwtrunc < v then lwtrunc else v)
  else y

/-- Body of the psislw loop on one column: shift by the maximum, smooth
the tail, truncate, renormalize by subtracting sumlogs. -/
noncomputable def psislwColumn (wcpp wtrunc : ℝ) (n : ℕ) (x : List ℝ) :
    Option (List ℝ) × EReal :=
  let shifted := x.map (fun v => v - listMax x)
  match smoothColumn wcpp shifted with
  | (none, k) => (none, k)
  | (some y, k) =>
    let y2 := truncateCol wtrunc n y
    (some (y2.map (fun v => v - sumlogs y2)), k)

/-- Input array of psislw: one-dimensional, two-dimensional of shape
n x m held as its list of m columns of length n, or an array of any
other dimensionality (whose payload psislw never reads). -/
inductive NDInput where
  | d1 (x : List ℝ)
  | d2 (n : ℕ) (cols : List (List ℝ))
  | otherDim (d : ℕ)

/-- Rectangularity invariant of a numpy array in the column-list
embedding: every column of a two-dimensional array has length n. -/
def NDInput.rect : NDInput → Prop
  | .d2 n cols => ∀ c ∈ cols, c.length = n
  | _ => True

/-- Elementwise negation of the array. -/
noncomputable def NDInput.neg : NDInput → NDInput
  | .d1 x => .d1 (x.map (fun v => -v))
  | .d2 n cols => .d2 n (cols.map (fun c => c.map (fun v => -v)))
  | .otherDim d => .otherDim d

/-- Columns of the array: a one-dimensional array is a single column. -/
def NDInput.columns : NDInput → List (List ℝ)
  | .d1 x => [x]
  | .d2 _ cols => cols
  | .otherDim _ => []

/-- Source function psislw (psis.py): raises a dimensionality error for
an input that is neither one- nor two-dimensional, then a sample-size
error when n is at most 1, both before producing any output; otherwise
processes every column independently. The per-column results are the
smoothed columns (none for a NaN-poisoned column) and the tail indices
(the source returns a scalar tail index for a one-dimensional input; here
it is the one-element list). -/
noncomputable def psislw (wcpp wtrunc : ℝ) (lw : NDInput) :
    Except String (List (Option (List ℝ)) × List EReal) :=
  match lw with
  | .otherDim _ => .error "Argument lw must be 1 or 2 dimensional."
  | .d1 x =>
    if x.length ≤ 1 then .error "More than one log-weight needed."
    else
      let r := psislwColumn wcpp wtrunc x.length x
      .ok ([r.1], [r.2])
  | .d2 n cols =>
    if n ≤ 1 then .error "More than one log-weight needed."
    else
      let rs := cols.map (psislwColumn wcpp wtrunc n)
      .ok (rs.map Prod.fst, rs.map Prod.snd)

/-- Pointwise leave-one-out log predictive densities: the smoothed
log-weights of each observation plus its log-likelihood column, reduced
over the draw axis with sumlogs (a poisoned column stays none). -/
noncomputable def pointwiseLoos (ll : NDInput) (scols : List (Option (List ℝ))) :
    List (Option ℝ) :=
  List.zipWith
    (fun oc lc => oc.map (fun y => sumlogs (List.zipWith (· + ·) y lc)))
    scols ll.columns

/-- Source function psisloo (psis.py): negate the log-likelihood, smooth
the raw log-weights with psislw (defaults wcpp = 20, wtrunc = 3/4,
overwrite forced on — immaterial in the pure embedding), add the
log-likelihood back, reduce each observation over the draw axis with
sumlogs, and sum the pointwise values into the total. -/
noncomputable def psisloo (ll : NDInput) :
    Except String (Option ℝ × List (Option ℝ) × List EReal) :=
  match psislw 20 (3 / 4) ll.neg with
  | .error e => .error e
  | .ok (scols, kssv) =>
    let loos := pointwiseLoos ll scols
    .ok ((seqOpt loos).map List.sum, loos, kssv)

/-- Population standard deviation, matching numpy.std with its default
zero delta degrees of freedom. -/
noncomputable def popStd (x : List ℝ) : ℝ :=
  Real.sqrt (mean (x.map (fun v => (v - mean x) ^ 2)))

/-- Source function loo_compare (psisloo.py): pointwise differences of
the two pointwise-elpd columns (the pandas join pairs rows positionally
for equal-length frames), their sum, and sqrt of the count times the
population standard deviation of the differences. -/
noncomputable def loo_compare (a b : List ℝ) : ℝ × ℝ :=
  let d := List.zipWith (fun u v => v - u) a b
  (d.sum, Real.sqrt (d.length : ℝ) * popStd d)

/-- Concrete ten-draw column used by a witness: the ascending integers
from -9 to 0. With wcpp = 60 its cutoff is the 40th percentile -27/5 and
the six entries -5..0 exceed it. -/
noncomputable def xc10 : List ℝ := [-9, -8, -7, -6, -5, -4, -3, -2, -1, 0]

/-! Helper lemmas -/

theorem gpinv1_pos_cases (p k sigma : ℝ) (hs : 0 < sigma) :
    (p = 0 → gpinv1 p k sigma = GVal.fin 0) ∧
    (p = 1 → (0 ≤ k → gpinv1 p k sigma = GVal.inf) ∧
      (k < 0 → gpinv1 p k sigma = GVal.fin (-sigma / k))) ∧
    (0 < p → p < 1 →
      (|k| < meps → gpinv1 p k sigma = GVal.fin (sigma * (-Real.log (1 + -p)))) ∧
      (meps ≤ |k| → gpinv1 p k sigma =
        GVal.fin (sigma * ((Real.exp (-k * Real.log (1 + -p)) - 1) / k)))) := by
  have hns : ¬ sigma ≤ 0 := not_le.mpr hs
  refine ⟨?_, ?_, ?_⟩
  · rintro rfl
    simp [gpinv1, hns]
  · rintro rfl
    constructor
    · intro hk
      simp [gpinv1, hns, hk]
    · intro hk
      simp [gpinv1, hns, not_le.mpr hk]
  · intro h1 h2
    constructor
    · intro hk
      simp [gpinv1, hns, h1, h2, hk]
    · intro hk
      simp [gpinv1, hns, h1, h2, not_lt.mpr hk]

theorem specKHat_apply (x : List ℝ) (bv : ℝ) :
    mean (x.map (fun v => Real.log (1 + -bv * v))) = specKHat x bv := rfl

theorem bsChain_eq (m : ℕ) (xq xmax : ℝ) :
    (((((((List.range m).map (fun j : ℕ => (j : ℝ) + 1)).map (fun v => v - 0.5)).map
      (fun v => (m : ℝ) / v)).map Real.sqrt).map (fun v => 1 - v)).map
      (fun v => v / (3 * xq))).map (fun v => v + 1 / xmax)
    = (List.range m).map (fun i => specBGrid m xq xmax (i + 1)) := by
  simp only [List.map_map]
  refine List.map_congr_left fun i _ => ?_
  simp only [Function.comp_apply, specBGrid]
  push_cast
  ring

theorem specL_apply (x : List ℝ) (m : ℕ) (xq xmax : ℝ) (j : ℕ) :
    (Real.log (-(specBGrid m xq xmax j / specKHat x (specBGrid m xq xmax j))) -
      specKHat x (specBGrid m xq xmax j) - 1) * (x.length : ℝ)
    = specProfileL x m xq xmax j := by
  simp only [specProfileL]
  ring

theorem specW_apply (x : List ℝ) (m : ℕ) (xq xmax : ℝ) (j : ℕ) :
    1 / (((List.range m).map
      (fun i => Real.exp (specProfileL x m xq xmax (i + 1) - specProfileL x m xq xmax j))).sum)
    = specW x m xq xmax j := rfl

theorem gpdfitCore_eq_spec (x : List ℝ) : gpdfitCore x = gpdfitSpec x := by
  simp only [gpdfitCore, gpdfitSpec]
  rw [bsChain_eq]
  simp only [List.map_map, Function.comp_def, specKHat_apply, List.zipWith_map,
    List.zipWith_same, specL_apply, specW_apply, List.zip_map', List.filter_map]

theorem meps_pos : (0 : ℝ) < meps := by
  unfold meps
  positivity

theorem neg_log_onesub_mono {p1 p2 : ℝ} (h0 : 0 < p1) (h12 : p1 ≤ p2) (h1 : p2 < 1) :
    -Real.log (1 + -p1) ≤ -Real.log (1 + -p2) := by
  have hpos : (0 : ℝ) < 1 + -p2 := by linarith
  have hle : 1 + -p2 ≤ 1 + -p1 := by linarith
  exact neg_le_neg (Real.log_le_log hpos hle)

theorem neg_log_onesub_nonneg {p : ℝ} (h0 : 0 ≤ p) (h1 : p < 1) :
    0 ≤ -Real.log (1 + -p) := by
  have := Real.log_nonpos (by linarith : (0 : ℝ) ≤ 1 + -p) (by linarith : 1 + -p ≤ 1)
  linarith

theorem expm1_div_mono {k : ℝ} (hk : k ≠ 0) {t1 t2 : ℝ} (h : t1 ≤ t2) :
    (Real.exp (k * t1) - 1) / k ≤ (Real.exp (k * t2) - 1) / k := by
  rcases lt_or_gt_of_ne hk with hneg | hpos
  · refine div_le_div_of_nonpos_of_le hneg.le ?_
    have : k * t2 ≤ k * t1 := mul_le_mul_of_nonpos_left h hneg.le
    have := Real.exp_le_exp.mpr this
    linarith
  · refine (div_le_div_iff_of_pos_right hpos).mpr ?_
    have : k * t1 ≤ k * t2 := mul_le_mul_of_nonneg_left h hpos.le
    have := Real.exp_le_exp.mpr this
    linarith

theorem expm1_div_nonneg {k : ℝ} (hk : k ≠ 0) {t : ℝ} (ht : 0 ≤ t) :
    0 ≤ (Real.exp (k * t) - 1) / k := by
  rcases lt_or_gt_of_ne hk with hneg | hpos
  · have h1 : k * t ≤ 0 := mul_nonpos_of_nonpos_of_nonneg hneg.le ht
    have h2 : Real.exp (k * t) ≤ 1 := Real.exp_le_one_iff.mpr h1
    exact div_nonneg_of_nonpos (by linarith) hneg.le
  · have h1 : 0 ≤ k * t := mul_nonneg hpos.le ht
    have h2 : 1 ≤ Real.exp (k * t) := Real.one_le_exp h1
    exact div_nonneg (by linarith) hpos.le

theorem expm1_div_le_neg_inv {k : ℝ} (hneg : k < 0) (t : ℝ) :
    (Real.exp (k * t) - 1) / k ≤ -1 / k := by
  refine div_le_div_of_nonpos_of_le hneg.le ?_
  have := Real.exp_pos (k * t)
  linarith

theorem gpinv1_interior_mono (k sigma p1 p2 : ℝ) (hs : 0 < sigma)
    (h0 : 0 < p1) (h12 : p1 ≤ p2) (h1 : p2 < 1) :
    GVal.le (gpinv1 p1 k sigma) (gpinv1 p2 k sigma) := by
  have hns : ¬ sigma ≤ 0 := not_le.mpr hs
  have h02 : 0 < p2 := lt_of_lt_of_le h0 h12
  have h11 : p1 < 1 := lt_of_le_of_lt h12 h1
  have ht := neg_log_onesub_mono h0 h12 h1
  rcases lt_or_le |k| meps with hk | hk
  · simp only [gpinv1, if_neg hns, if_pos (And.intro h0 h11), if_pos (And.intro h02 h1),
      if_pos hk]
    show sigma * (-Real.log (1 + -p1)) ≤ sigma * (-Real.log (1 + -p2))
    exact mul_le_mul_of_nonneg_left ht hs.le
  · have hk0 : k ≠ 0 := by
      intro h
      rw [h] at hk
      simp at hk
      exact absurd hk (not_le.mpr meps_pos)
    simp only [gpinv1, if_neg hns, if_pos (And.intro h0 h11), if_pos (And.intro h02 h1),
      if_neg (not_lt.mpr hk)]
    show sigma * ((Real.exp (-k * Real.log (1 + -p1)) - 1) / k) ≤
      sigma * ((Real.exp (-k * Real.log (1 + -p2)) - 1) / k)
    have e1 : -k * Real.log (1 + -p1) = k * (-Real.log (1 + -p1)) := by ring
    have e2 : -k * Real.log (1 + -p2) = k * (-Real.log (1 + -p2)) := by ring
    rw [e1, e2]
    exact mul_le_mul_of_nonneg_left (expm1_div_mono hk0 ht) hs.le

theorem gpinv1_interior_nonneg (k sigma p : ℝ) (hs : 0 < sigma)
    (h0 : 0 < p) (h1 : p < 1) :
    GVal.le (GVal.fin 0) (gpinv1 p k sigma) := by
  have hns : ¬ sigma ≤ 0 := not_le.mpr hs
  have ht := neg_log_onesub_nonneg h0.le h1
  rcases lt_or_le |k| meps with hk | hk
  · simp only [gpinv1, if_neg hns, if_pos (And.intro h0 h1), if_pos hk]
    show (0 : ℝ) ≤ sigma * (-Real.log (1 + -p))
    exact mul_nonneg hs.le ht
  · have hk0 : k ≠ 0 := by
      intro h
      rw [h] at hk
      simp at hk
      exact absurd hk (not_le.mpr meps_pos)
    simp only [gpinv1, if_neg hns, if_pos (And.intro h0 h1), if_neg (not_lt.mpr hk)]
    show (0 : ℝ) ≤ sigma * ((Real.exp (-k * Real.log (1 + -p)) - 1) / k)
    have e1 : -k * Real.log (1 + -p) = k * (-Real.log (1 + -p)) := by ring
    rw [e1]
    exact mul_nonneg hs.le (expm1_div_nonneg hk0 ht)

theorem foldl_max_sub (t : List ℝ) (c : ℝ) :
    ∀ a : ℝ, (t.map (fun v => v - c)).foldl max (a - c) = t.foldl max a - c := by
  induction t with
  | nil => intro a; rfl
  | cons h s ih =>
    intro a
    simp only [List.map_cons, List.foldl_cons]
    rw [max_sub_sub_right a h c, ih]

theorem listMax_map_sub (y : List ℝ) (c : ℝ) (hy : y ≠ []) :
    listMax (y.map (fun v => v - c)) = listMax y - c := by
  cases y with
  | nil => exact absurd rfl hy
  | cons h t =>
    simp only [List.map_cons, listMax]
    exact foldl_max_sub t c h

theorem sumlogs_map_sub (y : List ℝ) (c : ℝ) (hy : y ≠ []) :
    sumlogs (y.map (fun v => v - c)) = sumlogs y - c := by
  unfold sumlogs
  rw [listMax_map_sub y c hy, List.map_map]
  have he : ((fun v => Real.exp (v - (listMax y - c))) ∘ fun v => v - c) =
      fun v => Real.exp (v - listMax y) := by
    funext v
    simp only [Function.comp_apply]
    have harg : v - c - (listMax y - c) = v - listMax y := by ring
    rw [harg]
  rw [he]
  ring

theorem sumlogs_normalize (y : List ℝ) (hy : y ≠ []) :
    sumlogs (y.map (fun v => v - sumlogs y)) = 0 := by
  rw [sumlogs_map_sub y (sumlogs y) hy, sub_self]

theorem setFold_length (l : List (ℕ × ℝ)) :
    ∀ x : List ℝ, (l.foldl (fun a p => a.set p.1 p.2) x).length = x.length := by
  induction l with
  | nil => intro x; rfl
  | cons h t ih =>
    intro x
    simp only [List.foldl_cons]
    rw [ih, List.length_set]

theorem setMany_length (x : List ℝ) (idxs : List ℕ) (vals : List ℝ) :
    (setMany x idxs vals).length = x.length := by
  unfold setMany
  exact setFold_length _ x

theorem truncateCol_length (wtrunc : ℝ) (n : ℕ) (y : List ℝ) :
    (truncateCol wtrunc n y).length = y.length := by
  unfold truncateCol
  split
  · simp
  · rfl

theorem smoothColumn_some_length (wcpp : ℝ) (x y : List ℝ)
    (h : (smoothColumn wcpp x).1 = some y) : y.length = x.length := by
  simp only [smoothColumn] at h
  split at h
  · simp only [Prod.fst] at h
    rw [← Option.some_inj.mp h]
  · split at h
    · simp at h
    · simp only [Prod.fst] at h
      rw [← Option.some_inj.mp h, setMany_length]

theorem psislwColumn_some (wcpp wtrunc : ℝ) (n : ℕ) (x ys : List ℝ)
    (h : (psislwColumn wcpp wtrunc n x).1 = some ys) :
    ∃ y2 : List ℝ, y2.length = x.length ∧ ys = y2.map (fun v => v - sumlogs y2) := by
  simp only [psislwColumn] at h
  split at h
  · simp at h
  · rename_i y k heq
    refine ⟨truncateCol wtrunc n y, ?_, ?_⟩
    · rw [truncateCol_length]
      have hl := smoothColumn_some_length wcpp _ y (by rw [heq])
      rw [hl, List.length_map]
    · simp only [Prod.fst] at h
      exact (Option.some_inj.mp h).symm

theorem psislwColumn_norm (wcpp wtrunc : ℝ) (n : ℕ) (x ys : List ℝ)
    (hx : x ≠ []) (h : (psislwColumn wcpp wtrunc n x).1 = some ys) :
    sumlogs ys = 0 := by
  obtain ⟨y2, hlen, hys⟩ := psislwColumn_some wcpp wtrunc n x ys h
  have hy2 : y2 ≠ [] := by
    intro hemp
    rw [hemp] at hlen
    exact hx (List.eq_nil_of_length_eq_zero hlen.symm)
  rw [hys]
  exact sumlogs_normalize y2 hy2

theorem seqOpt_length : ∀ {l : List (Option ℝ)} {v : List ℝ},
    seqOpt l = some v → v.length = l.length := by
  intro l
  induction l with
  | nil =>
    intro v h
    simp only [seqOpt] at h
    rw [← Option.some_inj.mp h]
    rfl
  | cons o t ih =>
    intro v h
    cases o with
    | none => simp [seqOpt] at h
    | some w =>
      simp only [seqOpt] at h
      rcases hrec : seqOpt t with - | u
      · rw [hrec] at h
        simp at h
      · rw [hrec] at h
        rw [← Option.some_inj.mp h]
        simp [ih hrec]

theorem seqOpt_getD : ∀ {l : List (Option ℝ)} {v : List ℝ},
    seqOpt l = some v → ∀ r : ℕ, r < l.length → l.getD r none = some (v.getD r 0) := by
  intro l
  induction l with
  | nil =>
    intro v _ r hr
    simp at hr
  | cons o t ih =>
    intro v h r hr
    cases o with
    | none => simp [seqOpt] at h
    | some w =>
      simp only [seqOpt] at h
      rcases hrec : seqOpt t with - | u
      · rw [hrec] at h
        simp at h
      · rw [hrec] at h
        rw [← Option.some_inj.mp h]
        cases r with
        | zero => simp
        | succ r2 =>
          simp only [List.getD_cons_succ]
          exact ih hrec r2 (by simpa using hr)

theorem getD_map {α β : Type} (f : α → β) (l : List α) (r : ℕ) (d : α) (d2 : β)
    (hr : r < l.length) : (l.map f).getD r d2 = f (l.getD r d) := by
  rw [List.getD_eq_getElem _ _ (by simpa using hr), List.getD_eq_getElem _ _ hr,
    List.getElem_map]

theorem getD_range (n r : ℕ) (hr : r < n) : (List.range n).getD r 0 = r := by
  rw [List.getD_eq_getElem _ _ (by simpa using hr), List.getElem_range]

theorem setFold_getD_not_mem (l : List (ℕ × ℝ)) :
    ∀ (x : List ℝ) (i : ℕ), (∀ p ∈ l, p.1 ≠ i) →
      (l.foldl (fun a p => a.set p.1 p.2) x).getD i 0 = x.getD i 0 := by
  induction l with
  | nil => intro x i _; rfl
  | cons q t ih =>
    intro x i h
    simp only [List.foldl_cons]
    rw [ih (x.set q.1 q.2) i (fun p hp => h p (List.mem_cons_of_mem q hp))]
    rw [List.getD_eq_getElem?_getD, List.getD_eq_getElem?_getD,
      List.getElem?_set_ne (h q (List.mem_cons_self q t))]

theorem setFold_getD (l : List (ℕ × ℝ)) :
    ∀ (x : List ℝ) (r : ℕ), r < l.length → (l.map Prod.fst).Nodup →
      (l.getD r (0, 0)).1 < x.length →
      (l.foldl (fun a p => a.set p.1 p.2) x).getD ((l.getD r (0, 0)).1) 0 =
        (l.getD r (0, 0)).2 := by
  induction l with
  | nil =>
    intro x r hr
    simp at hr
  | cons q t ih =>
    intro x r hr hnd hlt
    simp only [List.map_cons, List.nodup_cons] at hnd
    cases r with
    | zero =>
      simp only [List.getD_cons_zero] at hlt ⊢
      simp only [List.foldl_cons]
      have hne : ∀ p ∈ t, p.1 ≠ q.1 := by
        intro p hp hpq
        exact hnd.1 (hpq ▸ List.mem_map_of_mem Prod.fst hp)
      rw [setFold_getD_not_mem t (x.set q.1 q.2) q.1 hne]
      rw [List.getD_eq_getElem _ _ (by rw [List.length_set]; exact hlt),
        List.getElem_set_self]
    | succ r2 =>
      simp only [List.getD_cons_succ] at hlt ⊢
      simp only [List.foldl_cons]
      exact ih (x.set q.1 q.2) r2 (by simpa using hr) hnd.2
        (by rw [List.length_set]; exact hlt)

theorem setMany_getD (x : List ℝ) (idxs : List ℕ) (vals : List ℝ) (r : ℕ)
    (hnd : idxs.Nodup) (hlen : idxs.length = vals.length) (hr : r < idxs.length)
    (hlt : idxs.getD r 0 < x.length) :
    (setMany x idxs vals).getD (idxs.getD r 0) 0 = vals.getD r 0 := by
  unfold setMany
  have hmap : (idxs.zip vals).map Prod.fst = idxs :=
    List.map_fst_zip idxs vals (le_of_eq hlen)
  have hzl : (idxs.zip vals).length = idxs.length := by
    rw [List.length_zip, hlen, min_self, ← hlen]
  have hget : (idxs.zip vals).getD r (0, 0) = (idxs.getD r 0, vals.getD r 0) := by
    rw [List.getD_eq_getElem _ _ (by rw [hzl]; exact hr), List.getElem_zip,
      List.getD_eq_getElem _ _ hr, List.getD_eq_getElem _ _ (by rw [← hlen]; exact hr)]
  have h := setFold_getD (idxs.zip vals) x r (by rw [hzl]; exact hr)
    (by rw [hmap]; exact hnd) (by rw [hget]; exact hlt)
  rw [hget] at h
  exact h

theorem tailInds_pairwise (wcpp : ℝ) (x : List ℝ) :
    List.Pairwise (· < ·) (tailIndsOf wcpp x) := by
  unfold tailIndsOf whereGt
  exact List.Pairwise.sublist (List.filter_sublist _) (List.pairwise_lt_range x.length)

theorem tailInds_lt (wcpp : ℝ) (x : List ℝ) :
    ∀ i ∈ tailIndsOf wcpp x, i < x.length := by
  intro i hi
  unfold tailIndsOf whereGt at hi
  exact List.mem_range.mp (List.mem_filter.mp hi).1

theorem pairwise_getD_mono (l : List ℕ)
    (h : List.Pairwise (· < ·) l) {a b : ℕ} (hab : a < b) (hb : b < l.length) :
    l.getD a 0 < l.getD b 0 := by
  rw [List.getD_eq_getElem _ _ (lt_trans hab hb), List.getD_eq_getElem _ _ hb]
  exact List.pairwise_iff_getElem.mp h a b (lt_trans hab hb) hb hab

theorem argsortR_perm (v : List ℝ) : (argsortR v).Perm (List.range v.length) :=
  List.perm_insertionSort _ _

theorem argsortR_length (v : List ℝ) : (argsortR v).length = v.length := by
  rw [(argsortR_perm v).length_eq, List.length_range]

theorem argsortR_nodup (v : List ℝ) : (argsortR v).Nodup :=
  (argsortR_perm v).symm.nodup (List.nodup_range v.length)

theorem argsortR_mem_lt (v : List ℝ) : ∀ i ∈ argsortR v, i < v.length := by
  intro i hi
  exact List.mem_range.mp ((argsortR_perm v).subset hi)

theorem argsortR_sorted (v : List ℝ) :
    List.Sorted (fun i j => v.getD i 0 ≤ v.getD j 0) (argsortR v) := by
  haveI : IsTotal ℕ (fun i j => v.getD i 0 ≤ v.getD j 0) :=
    ⟨fun a b => le_total _ _⟩
  haveI : IsTrans ℕ (fun i j => v.getD i 0 ≤ v.getD j 0) :=
    ⟨fun a b c hab hbc => le_trans hab hbc⟩
  exact List.sorted_insertionSort _ _

theorem argsortR_getD_mono (v : List ℝ) {r1 r2 : ℕ}
    (h12 : r1 ≤ r2) (h2 : r2 < v.length) :
    v.getD ((argsortR v).getD r1 0) 0 ≤ v.getD ((argsortR v).getD r2 0) 0 := by
  rcases eq_or_lt_of_le h12 with he | hlt
  · rw [he]
  · have h2l : r2 < (argsortR v).length := by rw [argsortR_length]; exact h2
    have h1l : r1 < (argsortR v).length := lt_trans hlt h2l
    rw [List.getD_eq_getElem _ _ h1l, List.getD_eq_getElem _ _ h2l]
    exact List.pairwise_iff_getElem.mp (argsortR_sorted v) r1 r2 h1l h2l hlt

theorem sti_interior (n2 r : ℕ) (hn2 : 0 < n2) (hr : r < n2) :
    0 < ((r : ℝ) + 0.5) / (n2 : ℝ) ∧ ((r : ℝ) + 0.5) / (n2 : ℝ) < 1 := by
  have hn2R : (0 : ℝ) < (n2 : ℝ) := by exact_mod_cast hn2
  constructor
  · positivity
  · rw [div_lt_one hn2R]
    have : (r : ℝ) + 1 ≤ (n2 : ℝ) := by exact_mod_cast hr
    norm_num
    linarith

theorem toReal_some : ∀ {g : GVal} {w : ℝ}, GVal.toReal? g = some w → g = GVal.fin w := by
  intro g w h
  cases g with
  | nan => simp [GVal.toReal?] at h
  | inf => simp [GVal.toReal?] at h
  | fin r =>
    simp [GVal.toReal?] at h
    rw [h]

theorem smoothColumn_some_eq (wcpp : ℝ) (x y : List ℝ)
    (h4 : 4 < (tailValsOf wcpp x).length)
    (hy : (smoothColumn wcpp x).1 = some y) :
    ∃ qv : List ℝ,
      seqOpt ((((List.range (tailValsOf wcpp x).length).map
          (fun i : ℕ => ((i : ℝ) + 0.5) / ((tailValsOf wcpp x).length : ℝ))).map
          (fun p => gpinv1 p
            (gpdfitCore ((tailValsOf wcpp x).map
              (fun v => Real.exp v - Real.exp (xcutoffOf wcpp x)))).1
            (gpdfitCore ((tailValsOf wcpp x).map
              (fun v => Real.exp v - Real.exp (xcutoffOf wcpp x)))).2)).map
          GVal.toReal?) = some qv ∧
      y = setMany x
        ((argsortR (tailValsOf wcpp x)).map ((tailIndsOf wcpp x).getD · 0))
        (qv.map (fun v => Real.log (v + Real.exp (xcutoffOf wcpp x)))) := by
  simp only [smoothColumn] at hy
  rw [if_neg (not_le.mpr h4)] at hy
  split at hy
  · simp at hy
  · rename_i qv hseq
    exact ⟨qv, hseq, (Option.some_inj.mp hy).symm⟩

/-! Claim theorems -/

/-- C4: gpinv returns NaN at every position when sigma is nonpositive;
when sigma is positive it returns 0 where p = 0, +infinity where p = 1
and k is nonnegative, -sigma / k where p = 1 and k is negative, and for
p strictly inside (0, 1) it returns sigma * (-log1p(-p)) when the
absolute shape is below machine epsilon and
sigma * expm1(-k * log1p(-p)) / k otherwise. -/
theorem gpinv_contract (ps : List ℝ) (k sigma : ℝ) :
    (sigma ≤ 0 → gpinv ps k sigma = ps.map (fun _ => GVal.nan)) ∧
    (0 < sigma → List.Forall₂ (fun p g =>
      (p = 0 → g = GVal.fin 0) ∧
      (p = 1 → (0 ≤ k → g = GVal.inf) ∧ (k < 0 → g = GVal.fin (-sigma / k))) ∧
      (0 < p → p < 1 →
        (|k| < meps → g = GVal.fin (sigma * (-Real.log (1 + -p)))) ∧
        (meps ≤ |k| → g = GVal.fin (sigma * ((Real.exp (-k * Real.log (1 + -p)) - 1) / k)))))
      ps (gpinv ps k sigma)) := by
  constructor
  · intro h
    unfold gpinv
    apply List.map_congr_left
    intro p _
    simp [gpinv1, h]
  · intro hs
    unfold gpinv
    rw [List.forall₂_map_right_iff, List.forall₂_same]
    intro p _
    exact gpinv1_pos_cases p k sigma hs

/-- C10: every position of the probability array whose value is strictly
below 0 or strictly above 1 yields NaN in the gpinv output (the output is
initialized to NaN and those positions are never written), for any shape
and scale. -/
theorem gpinv_nan_outside_unit (ps : List ℝ) (k sigma : ℝ) :
    List.Forall₂ (fun p g => (p < 0 ∨ 1 < p) → g = GVal.nan)
      ps (gpinv ps k sigma) := by
  unfold gpinv
  rw [List.forall₂_map_right_iff, List.forall₂_same]
  intro p _ hp
  rcases le_or_lt sigma 0 with hs | hs
  · simp [gpinv1, hs]
  · have hns : ¬ sigma ≤ 0 := not_le.mpr hs
    rcases hp with hp | hp
    · have h1 : ¬ (0 < p ∧ p < 1) := by
        rintro ⟨hc, -⟩
        linarith
      have h2 : p ≠ 0 := ne_of_lt hp
      have h3 : p ≠ 1 := by
        intro h
        rw [h] at hp
        norm_num at hp
      simp [gpinv1, hns, h1, h2, h3]
    · have h1 : ¬ (0 < p ∧ p < 1) := by
        rintro ⟨-, hc⟩
        linarith
      have h2 : p ≠ 0 := by
        intro h
        rw [h] at hp
        norm_num at hp
      have h3 : p ≠ 1 := ne_of_gt hp
      simp [gpinv1, hns, h1, h2, h3]

/-- C8: psislw fails with the dimensionality error for every input that
is neither one- nor two-dimensional, and with the sample-size error for
every one- or two-dimensional input with at most one draw; in this pure
embedding an error result carries no partial output, matching the
all-or-nothing contract (also under the overwrite flag, which the pure
embedding renders immaterial). -/
theorem psislw_shape_errors : ∀ wcpp wtrunc : ℝ,
    (∀ d : ℕ, psislw wcpp wtrunc (NDInput.otherDim d) =
      Except.error "Argument lw must be 1 or 2 dimensional.") ∧
    (∀ x : List ℝ, x.length ≤ 1 → psislw wcpp wtrunc (NDInput.d1 x) =
      Except.error "More than one log-weight needed.") ∧
    (∀ (n : ℕ) (cols : List (List ℝ)), n ≤ 1 →
      psislw wcpp wtrunc (NDInput.d2 n cols) =
      Except.error "More than one log-weight needed.") := by
  intro wcpp wtrunc
  refine ⟨fun d => rfl, fun x hx => ?_, fun n cols hn => ?_⟩
  · simp [psislw, hx]
  · simp [psislw, hn]

/-- C5 counterexample: the claimed monotonicity of gpinv in its
probability argument fails, as stated, at the concrete input with shape
k = -2 ^ (-60) (negative, below machine epsilon in magnitude), scale
sigma = 1 and probabilities p1 = 1 - exp(-2 ^ 61) and p2 = 1: p1 lies in
[0, 1], p1 is at most p2, p2 lies in [0, 1] and sigma is positive, yet
the quantile at p1 (2 ^ 61, from the exponential-limit branch) exceeds
the quantile at p2 (the boundary value -sigma / k = 2 ^ 60). -/
theorem gpinv1_monotone_cex :
    (0 : ℝ) < 1 ∧
    (0 : ℝ) ≤ 1 - Real.exp (-(2 ^ 61 : ℝ)) ∧
    (1 - Real.exp (-(2 ^ 61 : ℝ)) : ℝ) ≤ 1 ∧
    ((1 : ℝ) ≤ 1) ∧
    ¬ GVal.le (gpinv1 (1 - Real.exp (-(2 ^ 61 : ℝ))) (-(2 : ℝ) ^ (-(60 : ℤ))) 1)
        (gpinv1 1 (-(2 : ℝ) ^ (-(60 : ℤ))) 1) := by
  have hepos : (0 : ℝ) < Real.exp (-(2 ^ 61 : ℝ)) := Real.exp_pos _
  have helt1 : Real.exp (-(2 ^ 61 : ℝ)) < 1 := by
    rw [Real.exp_lt_one_iff]
    norm_num
  have hkpos : (0 : ℝ) < (2 : ℝ) ^ (-(60 : ℤ)) := by positivity
  have hns : ¬ (1 : ℝ) ≤ 0 := by norm_num
  have habs : |(-(2 : ℝ) ^ (-(60 : ℤ)))| < meps := by
    rw [abs_neg, abs_of_pos hkpos]
    unfold meps
    exact zpow_lt_zpow_right₀ (by norm_num) (by norm_num)
  have e1 : gpinv1 (1 - Real.exp (-(2 ^ 61 : ℝ))) (-(2 : ℝ) ^ (-(60 : ℤ))) 1 =
      GVal.fin (1 * (-Real.log (1 + -(1 - Real.exp (-(2 ^ 61 : ℝ)))))) := by
    rw [gpinv1, if_neg hns, if_pos (And.intro (by linarith) (by linarith)), if_pos habs]
  have e2 : gpinv1 1 (-(2 : ℝ) ^ (-(60 : ℤ))) 1 =
      GVal.fin (-1 / (-(2 : ℝ) ^ (-(60 : ℤ)))) := by
    rw [gpinv1, if_neg hns, if_neg (by norm_num), if_neg (by norm_num), if_pos rfl,
      if_neg (not_le.mpr (by linarith : (-(2 : ℝ) ^ (-(60 : ℤ))) < 0))]
  have v1 : 1 * (-Real.log (1 + -(1 - Real.exp (-(2 ^ 61 : ℝ))))) = (2 ^ 61 : ℝ) := by
    have : (1 : ℝ) + -(1 - Real.exp (-(2 ^ 61 : ℝ))) = Real.exp (-(2 ^ 61 : ℝ)) := by ring
    rw [this, Real.log_exp]
    ring
  have v2 : -1 / (-(2 : ℝ) ^ (-(60 : ℤ))) = (2 ^ 60 : ℝ) := by
    rw [zpow_neg]
    field_simp
    rw [← zpow_natCast (2 : ℝ) 60]
    norm_num
  refine ⟨by norm_num, by linarith, by linarith, le_refl 1, ?_⟩
  rw [e1, e2, v1, v2]
  show ¬ ((2 ^ 61 : ℝ) ≤ (2 ^ 60 : ℝ))
  norm_num

/-- C5 (amended): for fixed shape k and scale sigma > 0, gpinv is
monotonically non-decreasing in its probability argument over [0, 1]
except in the one corner the counterexample forces: p2 = 1 with p1 < 1
while the shape is negative but smaller in magnitude than machine
epsilon (there the interior exponential-limit branch can exceed the
finite boundary value -sigma / k). -/
theorem gpinv1_monotone_amended (k sigma p1 p2 : ℝ) (hs : 0 < sigma)
    (hp0 : 0 ≤ p1) (h12 : p1 ≤ p2) (hp1 : p2 ≤ 1)
    (hexc : ¬ (p1 < 1 ∧ p2 = 1 ∧ -meps < k ∧ k < 0)) :
    GVal.le (gpinv1 p1 k sigma) (gpinv1 p2 k sigma) := by
  have ca := gpinv1_pos_cases p1 k sigma hs
  have cb := gpinv1_pos_cases p2 k sigma hs
  rcases eq_or_lt_of_le hp1 with h2e | h2lt
  · -- p2 = 1
    subst h2e
    rcases eq_or_lt_of_le h12 with h1e | h1lt
    · -- p1 = 1 as well: both sides coincide
      subst h1e
      rcases le_or_lt 0 k with hk | hk
      · rw [(ca.2.1 rfl).1 hk]
        exact trivial
      · rw [(ca.2.1 rfl).2 hk]
        show -sigma / k ≤ -sigma / k
        exact le_rfl
    · -- p1 < 1 = p2
      rcases le_or_lt 0 k with hk | hk
      · -- the right boundary value is +infinity
        rw [(cb.2.1 rfl).1 hk]
        rcases eq_or_lt_of_le hp0 with hz | hpos
        · rw [ca.1 hz.symm]
          exact trivial
        · rcases lt_or_le |k| meps with hb | hb
          · rw [((ca.2.2 hpos h1lt).1 hb)]
            exact trivial
          · rw [((ca.2.2 hpos h1lt).2 hb)]
            exact trivial
      · -- the shape is negative: the amendment gives k at most -meps
        have hkle : k ≤ -meps := by
          by_contra hcon
          push_neg at hcon
          exact hexc ⟨h1lt, rfl, hcon, hk⟩
        have hb : meps ≤ |k| := by
          rw [abs_of_neg hk]
          linarith
        rw [(cb.2.1 rfl).2 hk]
        rcases eq_or_lt_of_le hp0 with hz | hpos
        · rw [ca.1 hz.symm]
          show (0 : ℝ) ≤ -sigma / k
          exact div_nonneg_of_nonpos (neg_nonpos.mpr hs.le) hk.le
        · rw [((ca.2.2 hpos h1lt).2 hb)]
          show sigma * ((Real.exp (-k * Real.log (1 + -p1)) - 1) / k) ≤ -sigma / k
          have e1 : -k * Real.log (1 + -p1) = k * (-Real.log (1 + -p1)) := by ring
          have e2 : -sigma / k = sigma * (-1 / k) := by ring
          rw [e1, e2]
          exact mul_le_mul_of_nonneg_left (expm1_div_le_neg_inv hk _) hs.le
  · -- p2 < 1
    rcases eq_or_lt_of_le hp0 with hz | hpos
    · rw [ca.1 hz.symm]
      rcases eq_or_lt_of_le h12 with hz2 | hpos2
      · rw [← hz2, ca.1 hz.symm]
        show (0 : ℝ) ≤ 0
        exact le_rfl
      · rw [← hz] at hpos2
        exact gpinv1_interior_nonneg k sigma p2 hs hpos2 h2lt
    · exact gpinv1_interior_mono k sigma p1 p2 hs hpos h12 h2lt

/-- Witness for the amended C5 at k = 1, sigma = 1, p1 = 1/4, p2 = 1/2. -/
theorem gpinv1_monotone_amended_witness :
    GVal.le (gpinv1 (1 / 4) 1 1) (gpinv1 (1 / 2) 1 1) :=
  gpinv1_monotone_amended 1 1 (1 / 4) (1 / 2) (by norm_num) (by norm_num) (by norm_num)
    (by norm_num) (by rintro ⟨-, h2, -, -⟩; norm_num at h2)

/-- C1: for every 1- or 2-dimensional (rectangular) log-weight input with
more than one draw, every column of the smoothed psislw output that is a
real vector (that is, not poisoned by a NaN from a degenerate tail fit,
which the embedding renders as none) is normalized so that sumlogs
(LogSumExp) of that column equals 0, i.e. the weights sum to 1 in linear
space. -/
theorem psislw_normalized (wcpp wtrunc : ℝ) (lw : NDInput)
    (cols : List (Option (List ℝ))) (kss : List EReal)
    (hrect : lw.rect) (hok : psislw wcpp wtrunc lw = Except.ok (cols, kss)) :
    ∀ oc ∈ cols, ∀ ys : List ℝ, oc = some ys → sumlogs ys = 0 := by
  intro oc hmem ys hys
  cases lw with
  | otherDim d => exact absurd hok (by simp [psislw])
  | d1 x =>
    simp only [psislw] at hok
    split at hok
    · exact absurd hok (by simp)
    · rename_i hlen
      have hcols : cols = [(psislwColumn wcpp wtrunc x.length x).1] := by
        have := (Except.ok.injEq _ _).mp hok
        rw [← (Prod.mk.injEq _ _ _ _).mp this.symm |>.1]
      rw [hcols] at hmem
      rw [List.mem_singleton] at hmem
      have hx : x ≠ [] := by
        intro hemp
        rw [hemp] at hlen
        simp at hlen
      refine psislwColumn_norm wcpp wtrunc x.length x ys hx ?_
      rw [← hmem, hys]
  | d2 n cols0 =>
    simp only [psislw] at hok
    split at hok
    · exact absurd hok (by simp)
    · rename_i hn
      have hcols : cols = (cols0.map (psislwColumn wcpp wtrunc n)).map Prod.fst := by
        have := (Except.ok.injEq _ _).mp hok
        rw [← (Prod.mk.injEq _ _ _ _).mp this.symm |>.1]
      rw [hcols, List.map_map] at hmem
      obtain ⟨c, hc, hoc⟩ := List.mem_map.mp hmem
      have hclen : c.length = n := hrect c hc
      have hc0 : c ≠ [] := by
        intro hemp
        rw [hemp] at hclen
        simp at hclen
        omega
      refine psislwColumn_norm wcpp wtrunc n c ys hc0 ?_
      rw [← hys, ← hoc]
      rfl

/-- C2: for every column whose count of entries strictly above the
cutoff is at most 4, the tail-smoothing stage of psislw raises no error,
leaves every entry (in particular every non-tail entry) numerically
identical to the pre-smoothing shifted values, and the tail index
reported by the psislw column loop for that column is +infinity. (The
subsequent truncation and renormalization stages still run for such a
column, as for every column.) -/
theorem psislw_small_tail (wcpp wtrunc : ℝ) (n : ℕ) (x : List ℝ)
    (h : (tailValsOf wcpp (x.map (fun v => v - listMax x))).length ≤ 4) :
    smoothColumn wcpp (x.map (fun v => v - listMax x)) =
      (some (x.map (fun v => v - listMax x)), ⊤) ∧
    (psislwColumn wcpp wtrunc n x).2 = ⊤ := by
  have h1 : smoothColumn wcpp (x.map (fun v => v - listMax x)) =
      (some (x.map (fun v => v - listMax x)), ⊤) := by
    simp only [smoothColumn]
    rw [if_pos h]
  refine ⟨h1, ?_⟩
  simp only [psislwColumn]
  rw [h1]

/-! Concrete evaluation lemmas for the witnesses (the all-zero column of
two draws: the 80th percentile of the shifted column is 0, there are no
strict exceedances, so the small-tail branch applies). -/

theorem getD_00 (i : ℕ) : ([0, 0] : List ℝ).getD i 0 = 0 := by
  rcases i with _ | (_ | j) <;> rfl

theorem listMax_00 : listMax ([0, 0] : List ℝ) = 0 := by
  simp [listMax]

theorem shift_00 : ([0, 0] : List ℝ).map (fun v => v - listMax [0, 0]) = [0, 0] := by
  rw [listMax_00]
  simp

theorem sort_00 : List.insertionSort (· ≤ ·) ([0, 0] : List ℝ) = [0, 0] := by
  simp [List.insertionSort, List.orderedInsert]

theorem percentile_00 : percentile ([0, 0] : List ℝ) (100 - 20) = 0 := by
  simp only [percentile]
  rw [sort_00]
  simp only [getD_00]
  ring

theorem cutoffmin_lt : cutoffmin < -511 := by
  unfold cutoffmin floatTiny
  rw [Real.log_zpow]
  have h := Real.log_two_gt_d9
  push_cast
  nlinarith

theorem xcutoff_00 : xcutoffOf 20 ([0, 0] : List ℝ) = 0 := by
  unfold xcutoffOf
  rw [percentile_00]
  exact max_eq_left (by linarith [cutoffmin_lt])

theorem tailInds_00 : tailIndsOf 20 ([0, 0] : List ℝ) = [] := by
  unfold tailIndsOf whereGt
  rw [xcutoff_00]
  have hr : List.range (([0, 0] : List ℝ).length) = [0, 1] := rfl
  rw [hr]
  simp [List.filter, getD_00]

theorem tailVals_00 : tailValsOf 20 ([0, 0] : List ℝ) = [] := by
  unfold tailValsOf
  rw [tailInds_00]
  rfl

theorem smooth_00 : smoothColumn 20 ([0, 0] : List ℝ) = (some [0, 0], ⊤) := by
  simp only [smoothColumn]
  rw [tailVals_00]
  rfl

theorem sumlogs_00 : sumlogs ([0, 0] : List ℝ) = Real.log 2 := by
  unfold sumlogs
  rw [listMax_00]
  norm_num [Real.exp_zero]

theorem truncate_00 : truncateCol (3 / 4) 2 ([0, 0] : List ℝ) = [0, 0] := by
  unfold truncateCol
  rw [if_pos (by norm_num : (0 : ℝ) < 3 / 4)]
  simp only [sumlogs_00, Nat.cast_ofNat]
  have hlog := Real.log_pos (by norm_num : (1 : ℝ) < 2)
  have hcond : ¬ (3 / 4 * Real.log 2 - Real.log 2 + Real.log 2 < (0 : ℝ)) := by linarith
  have hcond2 : ¬ (3 / 4 * Real.log 2 < (0 : ℝ)) := by linarith
  simp [hcond, hcond2]

theorem psislwColumn_00 :
    psislwColumn 20 (3 / 4) 2 ([0, 0] : List ℝ) =
      (some [-(Real.log 2), -(Real.log 2)], ⊤) := by
  simp only [psislwColumn]
  rw [shift_00, smooth_00]
  simp [truncate_00, sumlogs_00]

theorem psislw_d1_00 :
    psislw 20 (3 / 4) (NDInput.d1 [0, 0]) =
      Except.ok ([some [-(Real.log 2), -(Real.log 2)]], [⊤]) := by
  simp only [psislw]
  rw [if_neg (by norm_num : ¬ (([0, 0] : List ℝ).length ≤ 1))]
  have hl : (([0, 0] : List ℝ).length) = 2 := rfl
  rw [hl, psislwColumn_00]

/-- Witness for C1: the all-zero two-draw column normalizes to the
column of two entries -log 2, whose sumlogs is 0. -/
theorem psislw_normalized_witness :
    sumlogs [-(Real.log 2), -(Real.log 2)] = 0 :=
  psislw_normalized 20 (3 / 4) (NDInput.d1 [0, 0])
    [some [-(Real.log 2), -(Real.log 2)]] [⊤] True.intro psislw_d1_00
    (some [-(Real.log 2), -(Real.log 2)]) (List.mem_singleton.mpr rfl)
    [-(Real.log 2), -(Real.log 2)] rfl

/-- Witness for C2 at the all-zero two-draw column, which has no strict
exceedances. -/
theorem psislw_small_tail_witness :
    smoothColumn 20 (([0, 0] : List ℝ).map (fun v => v - listMax [0, 0])) =
      (some (([0, 0] : List ℝ).map (fun v => v - listMax [0, 0])), ⊤) ∧
    (psislwColumn 20 (3 / 4) 2 ([0, 0] : List ℝ)).2 = ⊤ :=
  psislw_small_tail 20 (3 / 4) 2 [0, 0]
    (by rw [shift_00, tailVals_00]; norm_num)

/-- C3: for every one-dimensional sample with more than one entry,
gpdfitnew computes exactly the spec procedure: the discretized grid of
m = 80 + floor(sqrt(n2)) candidates b j = 1/x max +
(1 - sqrt(m/(j - 0.5))) / (3 x q) for j = 1..m, weights
w j = 1 / sum i exp(L i - L j), candidates with weight below 10 machine
epsilon dropped and the rest renormalized, posterior mean b of the grid,
and finally k = mean(log1p(-b x)) with sigma = -k / b. -/
theorem gpdfitnew_follows_spec (x : List ℝ) (h2 : 1 < x.length) :
    gpdfitnew x = Except.ok (gpdfitSpec x) := by
  unfold gpdfitnew
  rw [if_neg (not_le.mpr h2), gpdfitCore_eq_spec]

/-- Witness for C3 at the concrete sample with entries 1 and 2. -/
theorem gpdfitnew_follows_spec_witness :
    gpdfitnew [1, 2] = Except.ok (gpdfitSpec [1, 2]) :=
  gpdfitnew_follows_spec [1, 2] (by norm_num)

/-! Concrete evaluation lemmas for the ten-draw ascending column. -/

theorem sort_xc10 : List.insertionSort (· ≤ ·) xc10 = xc10 := by
  norm_num [xc10, List.insertionSort, List.orderedInsert]

theorem percentile_xc10 : percentile xc10 (100 - 60) = -27 / 5 := by
  simp only [percentile]
  rw [sort_xc10]
  have hlen : (xc10.length : ℝ) = 10 := by norm_num [xc10]
  rw [hlen]
  have hf : ⌊(100 - 60 : ℝ) / 100 * (10 - 1)⌋ = 3 := by norm_num
  rw [hf]
  have ht : Int.toNat 3 = 3 := rfl
  norm_num [xc10, ht, List.getElem_cons_succ, List.getElem_cons_zero]

theorem xcutoff_xc10 : xcutoffOf 60 xc10 = -27 / 5 := by
  unfold xcutoffOf
  rw [percentile_xc10]
  refine max_eq_left ?_
  have := cutoffmin_lt
  linarith

theorem tailInds_xc10 : tailIndsOf 60 xc10 = [4, 5, 6, 7, 8, 9] := by
  unfold tailIndsOf whereGt
  simp only [xcutoff_xc10]
  have hr : List.range xc10.length = [0, 1, 2, 3, 4, 5, 6, 7, 8, 9] := rfl
  rw [hr]
  norm_num [List.filter, xc10]

theorem tailVals_xc10 : tailValsOf 60 xc10 = [-5, -4, -3, -2, -1, 0] := by
  unfold tailValsOf
  rw [tailInds_xc10]
  norm_num [xc10]

/-- Negating the all-zero log-likelihood matrix gives it back. -/
theorem neg_d2_00 :
    NDInput.neg (NDInput.d2 2 [[0, 0]]) = NDInput.d2 2 [[0, 0]] := by
  simp [NDInput.neg]

theorem psislw_d2_00 :
    psislw 20 (3 / 4) (NDInput.d2 2 [[0, 0]]) =
      Except.ok ([some [-(Real.log 2), -(Real.log 2)]], [⊤]) := by
  simp only [psislw]
  rw [if_neg (by norm_num : ¬ (2 : ℕ) ≤ 1)]
  simp [psislwColumn_00]

/-- C6: for every column that is smoothed (more than 4 exceedances),
either the column is NaN-poisoned (none), or the write-back is
rank-preserving: the value at the position of the r-th smallest original
exceedance is exactly the r-th order-statistic quantile (shifted back and
logged), the original exceedances read in argsort order are ascending,
and the smoothed values read at those positions are ascending as well, so
the j-th largest smoothed quantile sits at the position that held the
j-th largest original exceedance. -/
theorem psislw_rank_preserving (wcpp : ℝ) (x : List ℝ)
    (h4 : 4 < (tailValsOf wcpp x).length) :
    (smoothColumn wcpp x).1 = none ∨
    (∀ y : List ℝ, (smoothColumn wcpp x).1 = some y →
      (∀ r : ℕ, r < (tailValsOf wcpp x).length →
        y.getD ((tailIndsOf wcpp x).getD
            ((argsortR (tailValsOf wcpp x)).getD r 0) 0) 0 =
          Real.log (((gpinv1 (((r : ℝ) + 0.5) / ((tailValsOf wcpp x).length : ℝ))
              (gpdfitCore ((tailValsOf wcpp x).map
                (fun v => Real.exp v - Real.exp (xcutoffOf wcpp x)))).1
              (gpdfitCore ((tailValsOf wcpp x).map
                (fun v => Real.exp v - Real.exp (xcutoffOf wcpp x)))).2).toReal?.getD 0) +
            Real.exp (xcutoffOf wcpp x))) ∧
      (∀ r1 r2 : ℕ, r1 ≤ r2 → r2 < (tailValsOf wcpp x).length →
        (tailValsOf wcpp x).getD ((argsortR (tailValsOf wcpp x)).getD r1 0) 0 ≤
          (tailValsOf wcpp x).getD ((argsortR (tailValsOf wcpp x)).getD r2 0) 0 ∧
        y.getD ((tailIndsOf wcpp x).getD
            ((argsortR (tailValsOf wcpp x)).getD r1 0) 0) 0 ≤
          y.getD ((tailIndsOf wcpp x).getD
            ((argsortR (tailValsOf wcpp x)).getD r2 0) 0) 0)) := by
  by_cases hnone : (smoothColumn wcpp x).1 = none
  · exact Or.inl hnone
  · right
    intro y hy
    obtain ⟨qv, hseq, hyeq⟩ := smoothColumn_some_eq wcpp x y h4 hy
    set tv := tailValsOf wcpp x with htv
    set ti := tailIndsOf wcpp x with hti
    set si := argsortR tv with hsi
    set e := Real.exp (xcutoffOf wcpp x) with he
    set fit := gpdfitCore (tv.map (fun v => Real.exp v - e)) with hfit
    have hn2pos : 0 < tv.length := lt_trans (by norm_num) h4
    have hn2R : (0 : ℝ) < (tv.length : ℝ) := by exact_mod_cast hn2pos
    have hsil : si.length = tv.length := argsortR_length tv
    have htil : ti.length = tv.length := by
      rw [htv]
      unfold tailValsOf
      rw [List.length_map, hti]
    have hqvlen : qv.length = tv.length := by
      have := seqOpt_length hseq
      simp only [List.length_map, List.length_range] at this
      rw [this]
    -- the probability grid entry read at rank r
    have hq : ∀ r : ℕ, r < tv.length →
        GVal.toReal? (gpinv1 (((r : ℝ) + 0.5) / (tv.length : ℝ)) fit.1 fit.2) =
          some (qv.getD r 0) := by
      intro r hr
      have hlen : r < ((((List.range tv.length).map
          (fun i : ℕ => ((i : ℝ) + 0.5) / (tv.length : ℝ))).map
          (fun p => gpinv1 p fit.1 fit.2)).map GVal.toReal?).length := by
        simp only [List.length_map, List.length_range]
        exact hr
      have hg := seqOpt_getD hseq r hlen
      rw [getD_map GVal.toReal? _ r GVal.nan none
          (by simpa [List.length_map, List.length_range] using hr)] at hg
      rw [getD_map (fun p => gpinv1 p fit.1 fit.2) _ r 0 GVal.nan
          (by simpa [List.length_map, List.length_range] using hr)] at hg
      rw [getD_map (fun i : ℕ => ((i : ℝ) + 0.5) / (tv.length : ℝ)) _ r 0 0
          (by simpa [List.length_range] using hr)] at hg
      rw [getD_range tv.length r hr] at hg
      exact hg
    have hsigma : 0 < fit.2 := by
      by_contra hcon
      push_neg at hcon
      have h0 := hq 0 hn2pos
      unfold gpinv1 at h0
      rw [if_pos hcon] at h0
      simp [GVal.toReal?] at h0
    have hqnonneg : ∀ r : ℕ, r < tv.length → 0 ≤ qv.getD r 0 := by
      intro r hr
      have hint := sti_interior tv.length r hn2pos hr
      have hle := gpinv1_interior_nonneg fit.1 fit.2 _ hsigma hint.1 hint.2
      rw [toReal_some (hq r hr)] at hle
      exact hle
    have hqmono : ∀ r1 r2 : ℕ, r1 ≤ r2 → r2 < tv.length →
        qv.getD r1 0 ≤ qv.getD r2 0 := by
      intro r1 r2 h12 h2
      have h1 := lt_of_le_of_lt h12 h2
      have hi1 := sti_interior tv.length r1 hn2pos h1
      have hi2 := sti_interior tv.length r2 hn2pos h2
      have hple : ((r1 : ℝ) + 0.5) / (tv.length : ℝ) ≤
          ((r2 : ℝ) + 0.5) / (tv.length : ℝ) := by
        refine (div_le_div_iff_of_pos_right hn2R).mpr ?_
        have : (r1 : ℝ) ≤ (r2 : ℝ) := by exact_mod_cast h12
        linarith
      have hle := gpinv1_interior_mono fit.1 fit.2 _ _ hsigma hi1.1 hple hi2.2
      rw [toReal_some (hq r1 h1), toReal_some (hq r2 h2)] at hle
      exact hle
    have hposnd : (si.map (ti.getD · 0)).Nodup := by
      refine List.Nodup.map_on ?_ (argsortR_nodup tv)
      intro a ha b hb hab
      rcases lt_trichotomy a b with h | h | h
      · exact absurd hab (ne_of_lt (pairwise_getD_mono ti (tailInds_pairwise wcpp x) h
          (htil ▸ argsortR_mem_lt tv b hb)))
      · exact h
      · exact absurd hab.symm (ne_of_lt (pairwise_getD_mono ti (tailInds_pairwise wcpp x) h
          (htil ▸ argsortR_mem_lt tv a ha)))
    have hsub : ∀ r : ℕ, r < tv.length →
        y.getD (ti.getD (si.getD r 0) 0) 0 =
          (qv.map (fun v => Real.log (v + e))).getD r 0 := by
      intro r hr
      have hrs : r < si.length := by rw [hsil]; exact hr
      have e1 : (si.map (ti.getD · 0)).getD r 0 = ti.getD (si.getD r 0) 0 :=
        getD_map _ si r 0 0 hrs
      have hmemti : ti.getD (si.getD r 0) 0 ∈ ti := by
        have hlt : si.getD r 0 < ti.length := by
          rw [htil]
          refine argsortR_mem_lt tv _ ?_
          rw [List.getD_eq_getElem _ _ hrs]
          exact List.getElem_mem _
        rw [List.getD_eq_getElem _ _ hlt]
        exact List.getElem_mem _
      rw [hyeq, ← e1]
      apply setMany_getD
      · exact hposnd
      · rw [List.length_map, List.length_map, hsil, hqvlen]
      · rw [List.length_map, hsil]
        exact hr
      · rw [e1]
        exact tailInds_lt wcpp x _ hmemti
    constructor
    · intro r hr
      rw [hsub r hr,
        getD_map (fun v => Real.log (v + e)) qv r 0 0 (by rw [hqvlen]; exact hr),
        hq r hr]
      rfl
    · intro r1 r2 h12 h2
      refine ⟨argsortR_getD_mono tv h12 h2, ?_⟩
      have h1 := lt_of_le_of_lt h12 h2
      rw [hsub r1 h1, hsub r2 h2,
        getD_map (fun v => Real.log (v + e)) qv r1 0 0 (by rw [hqvlen]; exact h1),
        getD_map (fun v => Real.log (v + e)) qv r2 0 0 (by rw [hqvlen]; exact h2)]
      have hepos : 0 < e := by
        rw [he]
        exact Real.exp_pos _
      refine Real.log_le_log ?_ ?_
      · have := hqnonneg r1 h1
        linarith
      · have := hqmono r1 r2 h12 h2
        linarith

/-- Witness for C6 at the ten-draw ascending column with wcpp = 60,
which has six exceedances. -/
theorem psislw_rank_preserving_witness :
    (smoothColumn 60 xc10).1 = none ∨
    (∀ y : List ℝ, (smoothColumn 60 xc10).1 = some y →
      (∀ r : ℕ, r < (tailValsOf 60 xc10).length →
        y.getD ((tailIndsOf 60 xc10).getD
            ((argsortR (tailValsOf 60 xc10)).getD r 0) 0) 0 =
          Real.log (((gpinv1 (((r : ℝ) + 0.5) / ((tailValsOf 60 xc10).length : ℝ))
              (gpdfitCore ((tailValsOf 60 xc10).map
                (fun v => Real.exp v - Real.exp (xcutoffOf 60 xc10)))).1
              (gpdfitCore ((tailValsOf 60 xc10).map
                (fun v => Real.exp v - Real.exp (xcutoffOf 60 xc10)))).2).toReal?.getD 0) +
            Real.exp (xcutoffOf 60 xc10))) ∧
      (∀ r1 r2 : ℕ, r1 ≤ r2 → r2 < (tailValsOf 60 xc10).length →
        (tailValsOf 60 xc10).getD ((argsortR (tailValsOf 60 xc10)).getD r1 0) 0 ≤
          (tailValsOf 60 xc10).getD ((argsortR (tailValsOf 60 xc10)).getD r2 0) 0 ∧
        y.getD ((tailIndsOf 60 xc10).getD
            ((argsortR (tailValsOf 60 xc10)).getD r1 0) 0) 0 ≤
          y.getD ((tailIndsOf 60 xc10).getD
            ((argsortR (tailValsOf 60 xc10)).getD r2 0) 0) 0)) :=
  psislw_rank_preserving 60 xc10 (by rw [tailVals_xc10]; norm_num)

/-- C7: for a log-likelihood input whose negation psislw smooths without
error, psisloo returns exactly: the pointwise list obtained by adding the
log-likelihood column back to the smoothed log-weights and reducing over
the draw axis with sumlogs (LogSumExp), one value per observation; the
tail indices unchanged; and the scalar total that is the sum of the
pointwise values whenever all of them are real. -/
theorem psisloo_composition (ll : NDInput) (scols : List (Option (List ℝ)))
    (kss : List EReal)
    (hps : psislw 20 (3 / 4) ll.neg = Except.ok (scols, kss)) :
    psisloo ll = Except.ok
      ((seqOpt (pointwiseLoos ll scols)).map List.sum, pointwiseLoos ll scols, kss) ∧
    (∀ j : ℕ, j < (pointwiseLoos ll scols).length →
      (pointwiseLoos ll scols).getD j none =
        (scols.getD j none).map
          (fun y => sumlogs (List.zipWith (· + ·) y (ll.columns.getD j [])))) ∧
    (∀ ys : List ℝ, seqOpt (pointwiseLoos ll scols) = some ys →
      (seqOpt (pointwiseLoos ll scols)).map List.sum = some ys.sum) := by
  refine ⟨?_, ?_, ?_⟩
  · simp only [psisloo]
    rw [hps]
  · intro j hj
    rw [pointwiseLoos, List.length_zipWith] at hj
    have hj1 : j < scols.length := lt_of_lt_of_le hj (min_le_left _ _)
    have hj2 : j < ll.columns.length := lt_of_lt_of_le hj (min_le_right _ _)
    unfold pointwiseLoos
    rw [List.getD_eq_getElem _ _ (by rw [List.length_zipWith]; exact hj),
      List.getElem_zipWith, List.getD_eq_getElem _ _ hj1, List.getD_eq_getElem _ _ hj2]
  · intro ys hys
    rw [hys]
    rfl

/-- Witness for C7 at the 2-by-1 all-zero log-likelihood matrix. -/
theorem psisloo_composition_witness :
    psisloo (NDInput.d2 2 [[0, 0]]) = Except.ok
      ((seqOpt (pointwiseLoos (NDInput.d2 2 [[0, 0]])
          [some [-(Real.log 2), -(Real.log 2)]])).map List.sum,
        pointwiseLoos (NDInput.d2 2 [[0, 0]]) [some [-(Real.log 2), -(Real.log 2)]],
        [⊤]) ∧
    (∀ j : ℕ, j < (pointwiseLoos (NDInput.d2 2 [[0, 0]])
        [some [-(Real.log 2), -(Real.log 2)]]).length →
      (pointwiseLoos (NDInput.d2 2 [[0, 0]])
          [some [-(Real.log 2), -(Real.log 2)]]).getD j none =
        (([some [-(Real.log 2), -(Real.log 2)]] :
            List (Option (List ℝ))).getD j none).map
          (fun y => sumlogs (List.zipWith (· + ·) y
            ((NDInput.d2 2 [[0, 0]]).columns.getD j [])))) ∧
    (∀ ys : List ℝ, seqOpt (pointwiseLoos (NDInput.d2 2 [[0, 0]])
        [some [-(Real.log 2), -(Real.log 2)]]) = some ys →
      (seqOpt (pointwiseLoos (NDInput.d2 2 [[0, 0]])
          [some [-(Real.log 2), -(Real.log 2)]])).map List.sum = some ys.sum) :=
  psisloo_composition (NDInput.d2 2 [[0, 0]]) [some [-(Real.log 2), -(Real.log 2)]] [⊤]
    (by rw [neg_d2_00]; exact psislw_d2_00)

/-- C9: loo_compare returns the sum of the pointwise elpd differences and
sqrt of the count times the population standard deviation of those
differences (for results of equal observation count), and comparing a
result with itself yields diff = 0 and se_diff = 0. -/
theorem loo_compare_spec (a b : List ℝ) :
    (a.length = b.length →
      loo_compare a b =
        ((List.zipWith (fun u v => v - u) a b).sum,
          Real.sqrt (a.length : ℝ) *
            popStd (List.zipWith (fun u v => v - u) a b))) ∧
    loo_compare a a = (0, 0) := by
  have hz : ∀ l : List ℝ, List.zipWith (fun u v : ℝ => v - u) l l =
      List.replicate l.length 0 := by
    intro l
    induction l with
    | nil => rfl
    | cons h t ih => simp [List.replicate_succ, ih]
  have hp : ∀ n : ℕ, popStd (List.replicate n (0 : ℝ)) = 0 := by
    intro n
    simp [popStd, mean, List.sum_replicate, List.map_replicate]
  constructor
  · intro h
    have hl : (List.zipWith (fun u v : ℝ => v - u) a b).length = a.length := by
      rw [List.length_zipWith, h, min_self]
    simp only [loo_compare]
    rw [hl]
  · simp only [loo_compare]
    rw [hz, hp]
    simp [List.sum_replicate]

end Stanity
